import Mathlib

/-!
Verification development for the ray-text styled text layout engine
(src/RaylibSDFTextEx.cpp, src/text_engine.h).

The engine's arithmetic uses `float`; the embedding uses `ℚ`, with the
source's literal tolerances (`0.001f`, `1.2f`) written as exact rationals
(`1/1000`, `6/5`).  External collaborators (FreeType, HarfBuzz, ICU) are
modelled by oracles constrained only by their documented interface
contracts: the ICU break iterator is a set of boundary positions, the ICU
bidi engine is a permutation of the line's UTF-16 indices, FreeType
rasterization is a deterministic function from glyph keys to metrics, and
shaping is a deterministic function from segment ranges to element lists
and widths.
-/

namespace RayText

/-- Positioned elements are abstracted to opaque tokens: the line
accumulation logic of `LayoutStyledText` treats them uniformly. -/
abbrev Elem := ℕ

/-! ### Line-break decision (LayoutStyledText, RaylibSDFTextEx.cpp:1320-1347) -/

/-- Translation of the break condition at RaylibSDFTextEx.cpp:1321-1323:
`paragraphStyle.wrapWidth > 0 && (lineStartXWithIndent +
currentLineCommittedWidth + width_of_this_segment > paragraphStyle.wrapWidth)
&& !pendingLineElements.empty() && width_of_this_segment > 0.001f`,
where `lineStartXWithIndent = isFirstLineOfParagraph ? firstLineIndent : 0`
(line 1320). -/
def shouldBreakLine (wrapWidth firstLineIndent committedWidth segWidth : ℚ)
    (isFirstLine : Bool) (pendingEmpty : Bool) : Bool :=
  decide (0 < wrapWidth) &&
  decide (wrapWidth < (if isFirstLine then firstLineIndent else 0) + committedWidth + segWidth) &&
  !pendingEmpty &&
  decide (1/1000 < segWidth)

/-- Break condition as the specification claim states it: overflow of the
wrap width (with indent) together with a non-empty pending line, with no
requirement on the incoming segment's own width. -/
def claimedBreakLine (wrapWidth firstLineIndent committedWidth segWidth : ℚ)
    (isFirstLine : Bool) (pendingEmpty : Bool) : Bool :=
  decide (0 < wrapWidth) &&
  decide (wrapWidth < (if isFirstLine then firstLineIndent else 0) + committedWidth + segWidth) &&
  !pendingEmpty

/-- State of the pending line during segment accumulation. -/
structure AccState where
  pending : List Elem
  committed : ℚ
  deriving DecidableEq

/-- Per-segment commitment step of `LayoutStyledText`
(RaylibSDFTextEx.cpp:1320-1347): optionally finalize the pending line
(modelled as clearing it; the finalized content is handled by the caller),
then append the segment's elements unsplit.  Returns the new state and
whether a wrap break occurred. -/
def commitSegment (wrapWidth firstLineIndent : ℚ) (isFirstLine : Bool)
    (st : AccState) (segElems : List Elem) (segWidth : ℚ) : AccState × Bool :=
  let brk := shouldBreakLine wrapWidth firstLineIndent st.committed segWidth
      isFirstLine st.pending.isEmpty
  let st1 : AccState := if brk then ⟨[], 0⟩ else st
  if segElems.isEmpty then (st1, brk)
  else (⟨st1.pending ++ segElems, st1.committed + segWidth⟩, brk)

/-- The break condition of C1 as stated is not what the code tests: a
zero-width segment arriving while the committed width already exceeds the
wrap width satisfies the claimed condition but the code does not break
(`width_of_this_segment > 0.001f` fails). -/
theorem shouldBreakLine_cex :
    shouldBreakLine 10 0 20 0 false false = false ∧
    claimedBreakLine 10 0 20 0 false false = true := by
  constructor
  · simp only [shouldBreakLine, Bool.and_eq_false_iff, decide_eq_false_iff_not, not_lt]
    norm_num
  · simp only [claimedBreakLine, Bool.and_eq_true, decide_eq_true_eq, Bool.not_eq_true']
    norm_num

/-- C1 (amended): with `wrap_width > 0`, a wrap break occurs exactly when
the applicable first-line indent plus the committed width plus the incoming
segment's width exceeds the wrap width, the pending line is non-empty, AND
the segment's own width exceeds the 0.001 tolerance; and in every case the
segment's elements are appended whole to the (possibly fresh) pending line,
never split. -/
theorem commitSegment_break_iff_and_unsplit
    (wrapWidth firstLineIndent : ℚ) (isFirstLine : Bool)
    (st : AccState) (segElems : List Elem) (segWidth : ℚ)
    (hw : 0 < wrapWidth) :
    ((commitSegment wrapWidth firstLineIndent isFirstLine st segElems segWidth).2 = true ↔
      (wrapWidth < (if isFirstLine then firstLineIndent else 0) + st.committed + segWidth ∧
       st.pending ≠ [] ∧ 1/1000 < segWidth)) ∧
    (commitSegment wrapWidth firstLineIndent isFirstLine st segElems segWidth).1.pending =
      (if (commitSegment wrapWidth firstLineIndent isFirstLine st segElems segWidth).2
       then ([] : List Elem) else st.pending) ++ segElems := by
  constructor
  · simp only [commitSegment, shouldBreakLine]
    rcases st with ⟨pending, committed⟩
    by_cases hseg : segElems.isEmpty <;>
      simp [hseg, hw, List.isEmpty_iff, and_assoc, and_comm, and_left_comm]
  · rcases st with ⟨pending, committed⟩
    simp only [commitSegment]
    by_cases hbrk : shouldBreakLine wrapWidth firstLineIndent committed segWidth
        isFirstLine pending.isEmpty <;>
      rcases hse : segElems with _ | ⟨e, rest⟩ <;>
      simp [hbrk]

/-- Witness instantiating the amended C1 theorem: wrap width 10, committed
width 6, incoming segment of width 7 on a non-empty pending line breaks,
and the two segment elements land unsplit on the fresh pending line. -/
theorem commitSegment_break_iff_and_unsplit_witness :
    (0:ℚ) < 10 ∧
    ((commitSegment 10 0 false ⟨[5], 6⟩ [7, 8] 7).2 = true ↔
      ((10:ℚ) < (if false then 0 else 0) + 6 + 7 ∧ [5] ≠ ([] : List Elem) ∧ (1:ℚ)/1000 < 7)) ∧
    (commitSegment 10 0 false ⟨[5], 6⟩ [7, 8] 7).1.pending =
      (if (commitSegment 10 0 false ⟨[5], 6⟩ [7, 8] 7).2
       then ([] : List Elem) else [5]) ++ [7, 8] :=
  ⟨by norm_num, commitSegment_break_iff_and_unsplit 10 0 false ⟨[5], 6⟩ [7, 8] 7 (by norm_num)⟩

/-! ### Line box height and baseline (calculateLineBoxHeight,
RaylibSDFTextEx.cpp:2468-2477, and finalizeCurrentLine:1480-1486) -/

/-- Line-height policy enum (text_engine.h:164-169). -/
inductive LineHeightType
  | NORMAL_SCALED_FONT_METRICS
  | FACTOR_SCALED_FONT_SIZE
  | ABSOLUTE_POINTS
  | CONTENT_SCALED
  deriving DecidableEq

/-- Scaled metrics fields used by the layout core (text_engine.h). -/
structure ScaledFontMetrics where
  ascent : ℚ
  descent : ℚ
  lineGap : ℚ
  recommendedLineHeight : ℚ
  deriving DecidableEq

/-- Paragraph-style fields consumed by line-height and break logic. -/
structure ParagraphStyleH where
  lineHeightType : LineHeightType
  lineHeightValue : ℚ
  wrapWidth : ℚ
  firstLineIndent : ℚ
  deriving DecidableEq

/-- Translation of `calculateLineBoxHeight`
(RaylibSDFTextEx.cpp:2468-2477).  Note the substitution at line 2470: a
content extent below 0.001 is replaced by the paragraph default extent, or
by `fontSize * 1.2` (falling back to `16 * 1.2`), before the policy switch
and the final max. -/
def calculateLineBoxHeight (pStyle : ParagraphStyleH) (defaultMetrics : ScaledFontMetrics)
    (currentMaxAscent currentMaxDescent paraPrimaryFontSizeForFactor : ℚ) : ℚ :=
  let contentActualHeight0 := currentMaxAscent + currentMaxDescent
  let contentActualHeight :=
    if contentActualHeight0 < 1/1000 then
      if 1/1000 < defaultMetrics.ascent + defaultMetrics.descent then
        defaultMetrics.ascent + defaultMetrics.descent
      else if 0 < paraPrimaryFontSizeForFactor then paraPrimaryFontSizeForFactor * (6/5)
      else 16 * (6/5)
    else contentActualHeight0
  let calculatedHeight :=
    match pStyle.lineHeightType with
    | .NORMAL_SCALED_FONT_METRICS => defaultMetrics.recommendedLineHeight * pStyle.lineHeightValue
    | .FACTOR_SCALED_FONT_SIZE => paraPrimaryFontSizeForFactor * pStyle.lineHeightValue
    | .ABSOLUTE_POINTS => pStyle.lineHeightValue
    | .CONTENT_SCALED => contentActualHeight * pStyle.lineHeightValue
  max calculatedHeight contentActualHeight

/-- Baseline position within the line box (finalizeCurrentLine,
RaylibSDFTextEx.cpp:1481-1486): max content ascent, shifted down by half
the slack when the box exceeds the content extent by more than 0.001 and
the policy is not content-scaled. -/
def baselineYInBox (pStyle : ParagraphStyleH)
    (maxContentAscent maxContentDescent lineBoxHeight : ℚ) : ℚ :=
  if maxContentAscent + maxContentDescent + 1/1000 < lineBoxHeight ∧
      pStyle.lineHeightType ≠ .CONTENT_SCALED then
    maxContentAscent + (lineBoxHeight - (maxContentAscent + maxContentDescent)) / 2
  else maxContentAscent

/-- Line-box height as claim C3 states it: the maximum of the raw policy
result and the raw content extent `maxContentAscent + maxContentDescent`,
with no low-extent substitution. -/
def claimedLineBoxHeight (pStyle : ParagraphStyleH) (defaultMetrics : ScaledFontMetrics)
    (currentMaxAscent currentMaxDescent paraPrimaryFontSizeForFactor : ℚ) : ℚ :=
  let contentExtent := currentMaxAscent + currentMaxDescent
  let policyResult :=
    match pStyle.lineHeightType with
    | .NORMAL_SCALED_FONT_METRICS => defaultMetrics.recommendedLineHeight * pStyle.lineHeightValue
    | .FACTOR_SCALED_FONT_SIZE => paraPrimaryFontSizeForFactor * pStyle.lineHeightValue
    | .ABSOLUTE_POINTS => pStyle.lineHeightValue
    | .CONTENT_SCALED => contentExtent * pStyle.lineHeightValue
  max policyResult contentExtent

/-- C3 as stated fails on the code: with zero content extent, an absolute
line height of 10 and paragraph default metrics of extent 16, the code
substitutes the default extent (line 2470) and returns 16, not
`max 10 (0 + 0) = 10`. -/
theorem calculateLineBoxHeight_cex :
    calculateLineBoxHeight ⟨.ABSOLUTE_POINTS, 10, 0, 0⟩ ⟨12, 4, 0, 0⟩ 0 0 16 ≠
      claimedLineBoxHeight ⟨.ABSOLUTE_POINTS, 10, 0, 0⟩ ⟨12, 4, 0, 0⟩ 0 0 16 := by
  simp only [calculateLineBoxHeight, claimedLineBoxHeight]
  norm_num

/-- Effective content extent used by the code: the raw extent unless it is
below 0.001, in which case the paragraph default extent, else
`fontSize * 1.2` (or `16 * 1.2`). -/
def effectiveContentExtent (defaultMetrics : ScaledFontMetrics)
    (currentMaxAscent currentMaxDescent paraPrimaryFontSizeForFactor : ℚ) : ℚ :=
  if currentMaxAscent + currentMaxDescent < 1/1000 then
    if 1/1000 < defaultMetrics.ascent + defaultMetrics.descent then
      defaultMetrics.ascent + defaultMetrics.descent
    else if 0 < paraPrimaryFontSizeForFactor then paraPrimaryFontSizeForFactor * (6/5)
    else 16 * (6/5)
  else currentMaxAscent + currentMaxDescent

/-- C3 (amended): for every input, the line-box height is the maximum of
the policy result and the effective content extent, where an extent below
0.001 is replaced by the paragraph default extent (or `fontSize * 1.2`, or
`16 * 1.2`) both in the content-scaled policy and in the final max;
whenever the raw extent is at least 0.001 the box is never shorter than
it; and the baseline equals the max content ascent, shifted down by half
the slack exactly when the box exceeds the content extent by more than
0.001 and the policy is not content-scaled. -/
theorem calculateLineBoxHeight_baseline_amended
    (pStyle : ParagraphStyleH) (dm : ScaledFontMetrics) (a d sz boxH : ℚ) :
    calculateLineBoxHeight pStyle dm a d sz =
      max (match pStyle.lineHeightType with
           | .NORMAL_SCALED_FONT_METRICS => dm.recommendedLineHeight * pStyle.lineHeightValue
           | .FACTOR_SCALED_FONT_SIZE => sz * pStyle.lineHeightValue
           | .ABSOLUTE_POINTS => pStyle.lineHeightValue
           | .CONTENT_SCALED => effectiveContentExtent dm a d sz * pStyle.lineHeightValue)
          (effectiveContentExtent dm a d sz) ∧
    (1/1000 ≤ a + d → a + d ≤ calculateLineBoxHeight pStyle dm a d sz) ∧
    baselineYInBox pStyle a d boxH =
      (if a + d + 1/1000 < boxH ∧ pStyle.lineHeightType ≠ .CONTENT_SCALED then
        a + (boxH - (a + d)) / 2 else a) := by
  refine ⟨?_, ?_, rfl⟩
  · simp only [calculateLineBoxHeight, effectiveContentExtent]
  · intro hext
    have hnotlt : ¬(a + d < 1/1000) := not_lt.mpr hext
    simp only [calculateLineBoxHeight, hnotlt, if_false]
    exact le_max_right _ _

/-- Witness for the amended C3 theorem in the substitution branch: zero
content extent with paragraph default extent 12 + 4 and absolute policy 10
yields the substituted height 16 (not max(10, 0) = 10), and at box height
16 the baseline shifts down by half the 16-point slack. -/
theorem calculateLineBoxHeight_baseline_amended_witness :
    (calculateLineBoxHeight ⟨.ABSOLUTE_POINTS, 10, 0, 0⟩ ⟨12, 4, 0, 14⟩ 0 0 16 =
      max (10 : ℚ) (effectiveContentExtent ⟨12, 4, 0, 14⟩ 0 0 16) ∧
     ((1:ℚ)/1000 ≤ 0 + 0 → (0:ℚ) + 0 ≤ calculateLineBoxHeight ⟨.ABSOLUTE_POINTS, 10, 0, 0⟩ ⟨12, 4, 0, 14⟩ 0 0 16) ∧
     baselineYInBox ⟨.ABSOLUTE_POINTS, 10, 0, 0⟩ 0 0 16 =
      (if (0:ℚ) + 0 + 1/1000 < 16 ∧
          (ParagraphStyleH.mk .ABSOLUTE_POINTS 10 0 0).lineHeightType ≠ .CONTENT_SCALED then
        0 + (16 - (0 + 0)) / 2 else 0)) ∧
    effectiveContentExtent ⟨12, 4, 0, 14⟩ 0 0 16 = 16 ∧
    calculateLineBoxHeight ⟨.ABSOLUTE_POINTS, 10, 0, 0⟩ ⟨12, 4, 0, 14⟩ 0 0 16 = 16 ∧
    baselineYInBox ⟨.ABSOLUTE_POINTS, 10, 0, 0⟩ 0 0 16 = 8 :=
  ⟨calculateLineBoxHeight_baseline_amended ⟨.ABSOLUTE_POINTS, 10, 0, 0⟩ ⟨12, 4, 0, 14⟩ 0 0 16 16,
   by simp only [effectiveContentExtent]; norm_num,
   by simp only [calculateLineBoxHeight]; norm_num,
   by
     simp only [baselineYInBox]
     rw [if_pos ⟨by norm_num, by decide⟩]
     norm_num⟩

/-! ### Scaled font metrics (GetScaledFontMetrics, RaylibSDFTextEx.cpp:864-896) -/

/-- Font-record fields consumed by `GetScaledFontMetrics` (loaded in
`LoadFont`, RaylibSDFTextEx.cpp:733-751). -/
structure FontRec where
  unitsPerEm : ℚ
  hasTypoMetrics : Bool
  typoAscender : ℚ
  typoDescender : ℚ
  typoLineGap : ℚ
  hheaAscender : ℚ
  hheaDescender : ℚ
  hheaLineGap : ℚ
  deriving DecidableEq

/-- Translation of the ascent/descent/line-gap/recommended-line-height part
of `GetScaledFontMetrics` (RaylibSDFTextEx.cpp:871-879) on the success path
for a valid font: scale by `size / unitsPerEm`, prefer typographic metrics,
and floor the recommended line height to `fontSize * 1.2` only when the
metric sum is at most 0.001. -/
def getScaledFontMetricsCore (f : FontRec) (fontSize : ℚ) : ScaledFontMetrics :=
  let scale := if 0 < f.unitsPerEm then fontSize / f.unitsPerEm else 1
  let ascent := (if f.hasTypoMetrics then f.typoAscender else f.hheaAscender) * scale
  let descent := -(if f.hasTypoMetrics then f.typoDescender else f.hheaDescender) * scale
  let lineGap := (if f.hasTypoMetrics then f.typoLineGap else f.hheaLineGap) * scale
  let rlh0 := ascent + descent + lineGap
  ⟨ascent, descent, lineGap, if rlh0 ≤ 1/1000 then fontSize * (6/5) else rlh0⟩

/-- C7's floor fails on the code: a font with typographic ascender 700,
descender −200, no line gap at 1000 units/em, requested at size 10, yields
a recommended line height of 9, which is below `10 * 1.2 = 12`; the code
only applies the 1.2 floor when the metric sum is at most 0.001
(RaylibSDFTextEx.cpp:879). -/
theorem getScaledFontMetrics_cex :
    (getScaledFontMetricsCore ⟨1000, true, 700, -200, 0, 0, 0, 0⟩ 10).recommendedLineHeight <
      10 * (6/5) := by
  simp only [getScaledFontMetricsCore]
  norm_num

/-- C7 (amended): for a valid font and positive size, the recommended line
height equals scaled ascent + descent + line-gap whenever that sum exceeds
0.001, and equals `fontSize * 1.2` otherwise; no unconditional
`fontSize * 1.2` lower bound holds. -/
theorem getScaledFontMetrics_recommended (f : FontRec) (fontSize : ℚ)
    (_hsz : 0 < fontSize) :
    (getScaledFontMetricsCore f fontSize).recommendedLineHeight =
      (if (getScaledFontMetricsCore f fontSize).ascent +
          (getScaledFontMetricsCore f fontSize).descent +
          (getScaledFontMetricsCore f fontSize).lineGap ≤ 1/1000 then
        fontSize * (6/5)
      else
        (getScaledFontMetricsCore f fontSize).ascent +
        (getScaledFontMetricsCore f fontSize).descent +
        (getScaledFontMetricsCore f fontSize).lineGap) := by
  simp only [getScaledFontMetricsCore]

/-- Witness for the amended C7 theorem at the concrete font of the
counterexample and size 10. -/
theorem getScaledFontMetrics_recommended_witness :
    (0:ℚ) < 10 ∧
    (getScaledFontMetricsCore ⟨1000, true, 700, -200, 0, 0, 0, 0⟩ 10).recommendedLineHeight =
      (if (getScaledFontMetricsCore ⟨1000, true, 700, -200, 0, 0, 0, 0⟩ 10).ascent +
          (getScaledFontMetricsCore ⟨1000, true, 700, -200, 0, 0, 0, 0⟩ 10).descent +
          (getScaledFontMetricsCore ⟨1000, true, 700, -200, 0, 0, 0, 0⟩ 10).lineGap ≤ 1/1000 then
        10 * (6/5)
      else
        (getScaledFontMetricsCore ⟨1000, true, 700, -200, 0, 0, 0, 0⟩ 10).ascent +
        (getScaledFontMetricsCore ⟨1000, true, 700, -200, 0, 0, 0, 0⟩ 10).descent +
        (getScaledFontMetricsCore ⟨1000, true, 700, -200, 0, 0, 0, 0⟩ 10).lineGap) :=
  ⟨by norm_num, getScaledFontMetrics_recommended ⟨1000, true, 700, -200, 0, 0, 0, 0⟩ 10 (by norm_num)⟩

/-! ### Codepoint availability (IsCodepointAvailable, RaylibSDFTextEx.cpp:817-861) -/

/-- Font ids are ints; `INVALID_FONT_ID = -1` (text_engine.h:13-14). -/
abbrev FontId := ℤ

/-- The invalid font id sentinel. -/
def INVALID_FONT_ID : FontId := -1

/-- Registry state consumed by `IsCodepointAvailable`: the set of loaded
font ids, the fallback chains, and the default font id. -/
structure FontRegistry where
  fonts : List FontId
  chains : List (FontId × List FontId)
  defaultFontId : FontId
  deriving DecidableEq

/-- Translation of `IsFontValid` (RaylibSDFTextEx.cpp:791). -/
def isFontValid (r : FontRegistry) (f : FontId) : Bool := f ∈ r.fonts

/-- Fallback chain registered for a font, if any
(`fontFallbackChains_.find`). -/
def chainOf (r : FontRegistry) (f : FontId) : List FontId :=
  match r.chains.find? (fun p => p.1 = f) with
  | some p => p.2
  | none => []

/-- Translation of `IsCodepointAvailable` (RaylibSDFTextEx.cpp:817-861).
`covers f cp` models `FT_Get_Char_Index(face_of_f, cp) != 0`.  The primary
font is checked first; the fallback chain only under `checkFallback`; and
the default font is consulted as a last resort whenever it is valid and
differs from the primary, regardless of `checkFallback` (the
`checked_default_in_fallback` dedup flag is only computed under
`checkFallback`, lines 844-850). -/
def isCodepointAvailable (covers : FontId → ℕ → Bool) (r : FontRegistry)
    (fontId : FontId) (cp : ℕ) (checkFallback : Bool) : Bool :=
  if isFontValid r fontId ∧ covers fontId cp then true
  else if checkFallback ∧
      (chainOf r fontId).any (fun fb => isFontValid r fb && covers fb cp) then true
  else if r.defaultFontId ≠ INVALID_FONT_ID ∧ r.defaultFontId ≠ fontId ∧
      ¬(checkFallback ∧ r.defaultFontId ∈ chainOf r fontId) ∧
      isFontValid r r.defaultFontId ∧ covers r.defaultFontId cp then true
  else false

/-- C10: even with `checkFallback = false`, `IsCodepointAvailable` returns
true whenever the default font is valid, differs from the queried font, and
covers the codepoint: the default font is consulted unconditionally as a
last resort. -/
theorem isCodepointAvailable_default_last_resort
    (covers : FontId → ℕ → Bool) (r : FontRegistry) (fontId : FontId) (cp : ℕ)
    (hne0 : r.defaultFontId ≠ INVALID_FONT_ID)
    (hne : r.defaultFontId ≠ fontId)
    (hvalid : isFontValid r r.defaultFontId = true)
    (hcov : covers r.defaultFontId cp = true) :
    isCodepointAvailable covers r fontId cp false = true := by
  unfold isCodepointAvailable
  by_cases h1 : isFontValid r fontId ∧ covers fontId cp
  · simp [h1]
  · simp [h1, hne0, hne, hvalid, hcov]

/-- Witness for C10: a registry with fonts 1 and 2, default 2, querying
font 1 for a codepoint only font 2 covers, with fallback checking off. -/
theorem isCodepointAvailable_default_last_resort_witness :
    isCodepointAvailable (fun f _ => f = 2) ⟨[1, 2], [], 2⟩ 1 100 false = true :=
  isCodepointAvailable_default_last_resort (fun f _ => f = 2) ⟨[1, 2], [], 2⟩ 1 100
    (by decide) (by decide) (by decide) (by decide)

/-! ### Glyph cache bookkeeping (getOrCacheGlyph, RaylibSDFTextEx.cpp:537-592;
getCachedGlyphByGID, RaylibSDFTextEx.cpp:897-980) -/

/-- Cache key `FTGlyphCacheKey`: the font actually used, the glyph index,
the SDF generation pixel size, and the SDF flag. -/
structure GlyphKey where
  fontId : FontId
  glyphIndex : ℕ
  sdfPixelSize : ℕ
  isSDF : Bool
  deriving DecidableEq

/-- Bookkeeping state of the glyph cache: the key set of
`glyph_cache_map_` and the LRU list `lru_glyph_list_` (front = most
recently used). -/
structure GlyphCacheState where
  mapKeys : List GlyphKey
  lru : List GlyphKey
  deriving DecidableEq

/-- The empty cache. -/
def GlyphCacheState.empty : GlyphCacheState := ⟨[], []⟩

/-- One get-or-create call, as both `getOrCacheGlyph` and
`getCachedGlyphByGID` manage the cache: on a hit the entry is spliced to
the front of the LRU list (lines 538-540 / 919-922); on a miss, if
rasterization fails the call returns early without touching the cache
(early `return {}` paths); otherwise, when `map.size() >= capacity` and the
LRU list is non-empty, the key at the back of the LRU list is erased from
the map and popped (lines 586-589 / 972-976), and the new key is pushed to
the front and inserted (lines 590-591 / 977-978). -/
def cacheStep (capacity : ℕ) (s : GlyphCacheState) (k : GlyphKey) (renderOk : Bool) :
    GlyphCacheState :=
  if k ∈ s.mapKeys then
    { mapKeys := s.mapKeys, lru := k :: s.lru.erase k }
  else if renderOk then
    let s1 : GlyphCacheState :=
      if capacity ≤ s.mapKeys.length then
        match s.lru.getLast? with
        | some kl => { mapKeys := s.mapKeys.erase kl, lru := s.lru.dropLast }
        | none => s
      else s
    { mapKeys := k :: s1.mapKeys, lru := k :: s1.lru }
  else s

/-- Running a sequence of get-or-create calls from the empty cache. -/
def cacheRun (capacity : ℕ) (ops : List (GlyphKey × Bool)) : GlyphCacheState :=
  List.foldl (fun s op => cacheStep capacity s op.1 op.2) GlyphCacheState.empty ops

/-- Cache well-formedness: a duplicate-free LRU list holding exactly the
map's keys, within capacity. -/
structure CacheInv (capacity : ℕ) (s : GlyphCacheState) : Prop where
  nodup : s.lru.Nodup
  perm : s.mapKeys.Perm s.lru
  card : s.mapKeys.length ≤ capacity

theorem cacheInv_empty (capacity : ℕ) : CacheInv capacity GlyphCacheState.empty :=
  ⟨List.nodup_nil, List.Perm.refl _, by simp [GlyphCacheState.empty]⟩

theorem cacheStep_inv (capacity : ℕ) (hcap : 1 ≤ capacity) (s : GlyphCacheState)
    (k : GlyphKey) (ok : Bool) (h : CacheInv capacity s) :
    CacheInv capacity (cacheStep capacity s k ok) := by
  by_cases hmem : k ∈ s.mapKeys
  · have hk : k ∈ s.lru := h.perm.mem_iff.mp hmem
    have hstate : cacheStep capacity s k ok = ⟨s.mapKeys, k :: s.lru.erase k⟩ := by
      unfold cacheStep; simp [hmem]
    rw [hstate]
    refine ⟨?_, ?_, h.card⟩
    · exact List.Nodup.cons (fun hc => (h.nodup.mem_erase_iff.mp hc).1 rfl) (h.nodup.erase k)
    · exact h.perm.trans (List.perm_cons_erase hk)
  · cases ok with
    | false =>
      have hstate : cacheStep capacity s k false = s := by unfold cacheStep; simp [hmem]
      rw [hstate]; exact h
    | true =>
      have hknotlru : k ∉ s.lru := fun hc => hmem (h.perm.mem_iff.mpr hc)
      by_cases hfull : capacity ≤ s.mapKeys.length
      · cases hlast : s.lru.getLast? with
        | none =>
          have hlru : s.lru = [] := List.getLast?_eq_none_iff.mp hlast
          have hmk0 : s.mapKeys.length = 0 := by rw [h.perm.length_eq, hlru]; rfl
          have hmk : s.mapKeys = [] := List.length_eq_zero.mp hmk0
          have hstate : cacheStep capacity s k true = ⟨[k], [k]⟩ := by
            unfold cacheStep; simp [hmem, hfull, hlast, hmk, hlru]
          rw [hstate]
          exact ⟨by simp, by simp, by simpa using hcap⟩
        | some kl =>
          obtain ⟨l', hl'⟩ := List.getLast?_eq_some_iff.mp hlast
          have hstate : cacheStep capacity s k true =
              ⟨k :: s.mapKeys.erase kl, k :: s.lru.dropLast⟩ := by
            unfold cacheStep; simp [hmem, hfull, hlast]
          have hkl_lru : kl ∈ s.lru := by rw [hl']; simp
          have hkl_map : kl ∈ s.mapKeys := h.perm.mem_iff.mpr hkl_lru
          have hnd : (l' ++ [kl]).Nodup := by rw [← hl']; exact h.nodup
          have hkl_not_l' : kl ∉ l' := fun hc =>
            (List.disjoint_of_nodup_append hnd) hc (by simp)
          have hdrop : s.lru.dropLast = l' := by rw [hl']; simp
          have herase : s.lru.erase kl = l' := by
            rw [hl', List.erase_append_right _ hkl_not_l']; simp
          have hperm_er : (s.mapKeys.erase kl).Perm l' := herase ▸ h.perm.erase kl
          have hk_not_l' : k ∉ l' := fun hc =>
            hknotlru (by rw [hl']; exact List.mem_append_left _ hc)
          rw [hstate]
          refine ⟨?_, ?_, ?_⟩
          · rw [hdrop]
            exact List.Nodup.cons hk_not_l' hnd.of_append_left
          · rw [hdrop]
            exact List.Perm.cons k hperm_er
          · have hlen : (s.mapKeys.erase kl).length = s.mapKeys.length - 1 :=
              List.length_erase_of_mem hkl_map
            have hpos : 0 < s.mapKeys.length := List.length_pos.mpr (fun hc => by
              rw [hc] at hkl_map; exact absurd hkl_map (List.not_mem_nil kl))
            have hcard := h.card
            simp only [List.length_cons, hlen]
            omega
      · have hstate : cacheStep capacity s k true = ⟨k :: s.mapKeys, k :: s.lru⟩ := by
          unfold cacheStep; simp [hmem, hfull]
        rw [hstate]
        refine ⟨List.Nodup.cons hknotlru h.nodup, List.Perm.cons k h.perm, ?_⟩
        simp only [List.length_cons]
        omega

theorem cacheRun_inv (capacity : ℕ) (hcap : 1 ≤ capacity) (ops : List (GlyphKey × Bool)) :
    CacheInv capacity (cacheRun capacity ops) := by
  have main : ∀ (l : List (GlyphKey × Bool)) (s : GlyphCacheState), CacheInv capacity s →
      CacheInv capacity (List.foldl (fun s op => cacheStep capacity s op.1 op.2) s l) := by
    intro l
    induction l with
    | nil => intro s hs; exact hs
    | cons op rest ih =>
      intro s hs
      exact ih _ (cacheStep_inv capacity hcap s op.1 op.2 hs)
  exact main ops GlyphCacheState.empty (cacheInv_empty capacity)

/-- C4: after any sequence of get-or-create calls from an empty cache with
capacity at least 1, the cache map and the LRU list contain exactly the
same keys and have equal sizes, the size never exceeds the capacity; and on
a miss when the cache is full, the key at the LRU end is the one removed
(the new key is inserted and every other key is retained). -/
theorem glyphCache_capacity_lru (capacity : ℕ) (hcap : 1 ≤ capacity)
    (ops : List (GlyphKey × Bool)) :
    ((cacheRun capacity ops).mapKeys.length = (cacheRun capacity ops).lru.length ∧
     (∀ k, k ∈ (cacheRun capacity ops).mapKeys ↔ k ∈ (cacheRun capacity ops).lru) ∧
     (cacheRun capacity ops).mapKeys.length ≤ capacity) ∧
    (∀ k kl, k ∉ (cacheRun capacity ops).mapKeys →
      (cacheRun capacity ops).lru.getLast? = some kl →
      capacity ≤ (cacheRun capacity ops).mapKeys.length →
      kl ∉ (cacheStep capacity (cacheRun capacity ops) k true).mapKeys ∧
      k ∈ (cacheStep capacity (cacheRun capacity ops) k true).mapKeys ∧
      ∀ k' ∈ (cacheRun capacity ops).mapKeys, k' ≠ kl →
        k' ∈ (cacheStep capacity (cacheRun capacity ops) k true).mapKeys) := by
  have hinv := cacheRun_inv capacity hcap ops
  set s := cacheRun capacity ops with hs
  constructor
  · exact ⟨hinv.perm.length_eq, fun k => hinv.perm.mem_iff, hinv.card⟩
  · intro k kl hmiss hlast hfull
    have hkl_lru : kl ∈ s.lru := by
      obtain ⟨l', hl'⟩ := List.getLast?_eq_some_iff.mp hlast
      rw [hl']; simp
    have hkl_map : kl ∈ s.mapKeys := hinv.perm.mem_iff.mpr hkl_lru
    have hkl_ne : kl ≠ k := fun hc => hmiss (hc ▸ hkl_map)
    have hmap_nodup : s.mapKeys.Nodup := hinv.perm.nodup_iff.mpr hinv.nodup
    have hstep : (cacheStep capacity s k true).mapKeys = k :: s.mapKeys.erase kl := by
      unfold cacheStep
      simp only [hmiss, if_false, if_true, hfull, hlast]
    refine ⟨?_, ?_, ?_⟩
    · rw [hstep]
      intro hc
      rcases List.mem_cons.mp hc with hc1 | hc2
      · exact hkl_ne hc1
      · exact (hmap_nodup.mem_erase_iff.mp hc2).1 rfl
    · rw [hstep]; exact List.mem_cons_self k _
    · intro k' hk' hne
      rw [hstep]
      exact List.mem_cons_of_mem k (List.mem_erase_of_ne hne |>.mpr hk')

/-- Witness for C4 at capacity 2 with three successful misses: the cache
holds keys 2 and 3, key 1 (the LRU end) was evicted. -/
theorem glyphCache_capacity_lru_witness :
    1 ≤ 2 ∧
    (((cacheRun 2 [(⟨1, 1, 64, true⟩, true), (⟨2, 1, 64, true⟩, true), (⟨3, 1, 64, true⟩, true)]).mapKeys.length =
       (cacheRun 2 [(⟨1, 1, 64, true⟩, true), (⟨2, 1, 64, true⟩, true), (⟨3, 1, 64, true⟩, true)]).lru.length ∧
      (∀ k, k ∈ (cacheRun 2 [(⟨1, 1, 64, true⟩, true), (⟨2, 1, 64, true⟩, true), (⟨3, 1, 64, true⟩, true)]).mapKeys ↔
        k ∈ (cacheRun 2 [(⟨1, 1, 64, true⟩, true), (⟨2, 1, 64, true⟩, true), (⟨3, 1, 64, true⟩, true)]).lru) ∧
      (cacheRun 2 [(⟨1, 1, 64, true⟩, true), (⟨2, 1, 64, true⟩, true), (⟨3, 1, 64, true⟩, true)]).mapKeys.length ≤ 2) ∧
     (∀ k kl, k ∉ (cacheRun 2 [(⟨1, 1, 64, true⟩, true), (⟨2, 1, 64, true⟩, true), (⟨3, 1, 64, true⟩, true)]).mapKeys →
       (cacheRun 2 [(⟨1, 1, 64, true⟩, true), (⟨2, 1, 64, true⟩, true), (⟨3, 1, 64, true⟩, true)]).lru.getLast? = some kl →
       2 ≤ (cacheRun 2 [(⟨1, 1, 64, true⟩, true), (⟨2, 1, 64, true⟩, true), (⟨3, 1, 64, true⟩, true)]).mapKeys.length →
       kl ∉ (cacheStep 2 (cacheRun 2 [(⟨1, 1, 64, true⟩, true), (⟨2, 1, 64, true⟩, true), (⟨3, 1, 64, true⟩, true)]) k true).mapKeys ∧
       k ∈ (cacheStep 2 (cacheRun 2 [(⟨1, 1, 64, true⟩, true), (⟨2, 1, 64, true⟩, true), (⟨3, 1, 64, true⟩, true)]) k true).mapKeys ∧
       ∀ k' ∈ (cacheRun 2 [(⟨1, 1, 64, true⟩, true), (⟨2, 1, 64, true⟩, true), (⟨3, 1, 64, true⟩, true)]).mapKeys, k' ≠ kl →
         k' ∈ (cacheStep 2 (cacheRun 2 [(⟨1, 1, 64, true⟩, true), (⟨2, 1, 64, true⟩, true), (⟨3, 1, 64, true⟩, true)]) k true).mapKeys)) :=
  ⟨by decide, glyphCache_capacity_lru 2 (by decide) [(⟨1, 1, 64, true⟩, true), (⟨2, 1, 64, true⟩, true), (⟨3, 1, 64, true⟩, true)]⟩

/-! ### Font unloading (UnloadFont, RaylibSDFTextEx.cpp:765-789) -/

/-- Engine state touched by `UnloadFont`: the font registry plus the glyph
cache bookkeeping. -/
structure EngineState where
  reg : FontRegistry
  cache : GlyphCacheState
  deriving DecidableEq

/-- Translation of `UnloadFont` (RaylibSDFTextEx.cpp:765-789): if the font
is loaded, erase it from the registry; drop its own fallback chain and
filter it out of every other chain (lines 772-775); sweep the LRU list,
erasing every cache entry whose key references the font from both the map
and the list (lines 777-785); finally, if the unloaded font was the
default, reset the default to the first remaining font, or
`INVALID_FONT_ID` when none remain (line 787). -/
def unloadFont (s : EngineState) (f : FontId) : EngineState :=
  if f ∈ s.reg.fonts then
    { reg := { fonts := s.reg.fonts.erase f,
               chains := (s.reg.chains.filter (fun p => !decide (p.1 = f))).map
                 (fun p => (p.1, p.2.filter (fun g => !decide (g = f)))),
               defaultFontId := if s.reg.defaultFontId = f then
                   match (s.reg.fonts.erase f).head? with
                   | some g => g
                   | none => INVALID_FONT_ID
                 else s.reg.defaultFontId },
      cache := { mapKeys := s.cache.mapKeys.filter
                   (fun k => !(decide (k.fontId = f) && decide (k ∈ s.cache.lru))),
                 lru := s.cache.lru.filter (fun k => !decide (k.fontId = f)) } }
  else s

/-- C8: after unloading a previously loaded font f — assuming every cache
map key appears in the LRU list (the maintained cache invariant) and the
default font id was either the invalid sentinel or a loaded font — no
remaining cache entry references f, f has no fallback chain of its own and
appears in no other font's chain, and the default font id is either
`INVALID_FONT_ID` or a font still present in the registry. -/
theorem unloadFont_scrubs (s : EngineState) (f : FontId)
    (hf : f ∈ s.reg.fonts)
    (hsync : ∀ k, k ∈ s.cache.mapKeys → k ∈ s.cache.lru)
    (hdef : s.reg.defaultFontId = INVALID_FONT_ID ∨ s.reg.defaultFontId ∈ s.reg.fonts) :
    (∀ k ∈ (unloadFont s f).cache.mapKeys, k.fontId ≠ f) ∧
    (∀ k ∈ (unloadFont s f).cache.lru, k.fontId ≠ f) ∧
    (∀ p ∈ (unloadFont s f).reg.chains, p.1 ≠ f ∧ f ∉ p.2) ∧
    ((unloadFont s f).reg.defaultFontId = INVALID_FONT_ID ∨
      (unloadFont s f).reg.defaultFontId ∈ (unloadFont s f).reg.fonts) := by
  unfold unloadFont
  simp only [if_pos hf]
  refine ⟨?_, ?_, ?_, ?_⟩
  · intro k hk
    rw [List.mem_filter] at hk
    intro hkf
    have hl := hsync k hk.1
    simp [hkf, hl] at hk
  · intro k hk
    rw [List.mem_filter] at hk
    intro hkf
    simp [hkf] at hk
  · intro p hp
    rw [List.mem_map] at hp
    obtain ⟨q, hq, rfl⟩ := hp
    rw [List.mem_filter] at hq
    refine ⟨?_, ?_⟩
    · intro hc
      exact absurd hc (by simpa using hq.2)
    · intro hc
      rw [List.mem_filter] at hc
      simp at hc
  · by_cases hdf : s.reg.defaultFontId = f
    · simp only [if_pos hdf]
      cases hh : (s.reg.fonts.erase f).head? with
      | none => left; rfl
      | some g =>
        right
        show g ∈ s.reg.fonts.erase f
        cases hlist : s.reg.fonts.erase f with
        | nil => rw [hlist] at hh; simp at hh
        | cons a t =>
          rw [hlist] at hh
          simp only [List.head?_cons, Option.some.injEq] at hh
          rw [← hh]
          exact List.mem_cons_self a t
    · simp only [if_neg hdf]
      rcases hdef with h0 | hmem
      · left; exact h0
      · right; exact (List.mem_erase_of_ne hdf).mpr hmem

/-- Witness for C8: a registry with fonts 1 and 2 (default 1, mutual
fallback chains) and two cached glyphs, one per font; unloading font 1
scrubs every reference to it. -/
theorem unloadFont_scrubs_witness :
    ((1:FontId) ∈ [(1:FontId), 2] ∧
     (∀ k, k ∈ [GlyphKey.mk 1 5 64 true, GlyphKey.mk 2 6 64 true] →
        k ∈ [GlyphKey.mk 1 5 64 true, GlyphKey.mk 2 6 64 true]) ∧
     ((1:FontId) = INVALID_FONT_ID ∨ (1:FontId) ∈ [(1:FontId), 2])) ∧
    ((∀ k ∈ (unloadFont ⟨⟨[1, 2], [(1, [2]), (2, [1, 2])], 1⟩,
        ⟨[⟨1, 5, 64, true⟩, ⟨2, 6, 64, true⟩], [⟨1, 5, 64, true⟩, ⟨2, 6, 64, true⟩]⟩⟩ 1).cache.mapKeys,
        k.fontId ≠ 1) ∧
     (∀ k ∈ (unloadFont ⟨⟨[1, 2], [(1, [2]), (2, [1, 2])], 1⟩,
        ⟨[⟨1, 5, 64, true⟩, ⟨2, 6, 64, true⟩], [⟨1, 5, 64, true⟩, ⟨2, 6, 64, true⟩]⟩⟩ 1).cache.lru,
        k.fontId ≠ 1) ∧
     (∀ p ∈ (unloadFont ⟨⟨[1, 2], [(1, [2]), (2, [1, 2])], 1⟩,
        ⟨[⟨1, 5, 64, true⟩, ⟨2, 6, 64, true⟩], [⟨1, 5, 64, true⟩, ⟨2, 6, 64, true⟩]⟩⟩ 1).reg.chains,
        p.1 ≠ 1 ∧ (1:FontId) ∉ p.2) ∧
     ((unloadFont ⟨⟨[1, 2], [(1, [2]), (2, [1, 2])], 1⟩,
        ⟨[⟨1, 5, 64, true⟩, ⟨2, 6, 64, true⟩], [⟨1, 5, 64, true⟩, ⟨2, 6, 64, true⟩]⟩⟩ 1).reg.defaultFontId = INVALID_FONT_ID ∨
      (unloadFont ⟨⟨[1, 2], [(1, [2]), (2, [1, 2])], 1⟩,
        ⟨[⟨1, 5, 64, true⟩, ⟨2, 6, 64, true⟩], [⟨1, 5, 64, true⟩, ⟨2, 6, 64, true⟩]⟩⟩ 1).reg.defaultFontId ∈
        (unloadFont ⟨⟨[1, 2], [(1, [2]), (2, [1, 2])], 1⟩,
        ⟨[⟨1, 5, 64, true⟩, ⟨2, 6, 64, true⟩], [⟨1, 5, 64, true⟩, ⟨2, 6, 64, true⟩]⟩⟩ 1).reg.fonts)) :=
  ⟨⟨by decide, fun k hk => hk, by decide⟩,
   unloadFont_scrubs ⟨⟨[1, 2], [(1, [2]), (2, [1, 2])], 1⟩,
     ⟨[⟨1, 5, 64, true⟩, ⟨2, 6, 64, true⟩], [⟨1, 5, 64, true⟩, ⟨2, 6, 64, true⟩]⟩⟩ 1
     (by decide) (fun k hk => hk) (by decide)⟩

/-! ### Cursor line selection (GetCursorInfoFromByteOffset, RaylibSDFTextEx.cpp:2008-2018) -/

/-- A line's source byte range in the concatenated text
(`sourceTextByteStartIndexInBlockText` / `sourceTextByteEndIndexInBlockText`,
end exclusive). -/
structure LineRange where
  startByte : ℕ
  endByte : ℕ
  deriving DecidableEq

/-- Line-selection loop of `GetCursorInfoFromByteOffset`
(RaylibSDFTextEx.cpp:2009-2016): the first line index i such that o lies in
[start_i, end_i), or o equals end_i and line i is the last line or o
precedes line i+1's start, or o equals the total text length and line i is
the last line. -/
def findCursorLine (totalLen o : ℕ) : List LineRange → Option ℕ
  | [] => none
  | l :: rest =>
    if (l.startByte ≤ o ∧ o < l.endByte) ∨
        (o = l.endByte ∧ (rest = [] ∨ o < (rest.headD ⟨0, 0⟩).startByte)) ∨
        (o = totalLen ∧ rest = []) then some 0
    else (findCursorLine totalLen o rest).map (· + 1)

/-- The specification's edge rule: offset o belongs to line i when o lies
inside its byte range, or o equals its end byte and the next line either
does not exist or starts strictly after o. -/
def SpecSelectsLine (o : ℕ) : List LineRange → ℕ → Prop
  | [], _ => False
  | l :: rest, 0 =>
    (l.startByte ≤ o ∧ o < l.endByte) ∨
    (o = l.endByte ∧ (rest = [] ∨ o < (rest.headD ⟨0, 0⟩).startByte))
  | _ :: rest, i + 1 => SpecSelectsLine o rest i

/-- Contiguity of line byte ranges, as the layout loop maintains them:
starting at c, each line starts where the previous one ended, each range is
well formed, and the last range ends at the total length. -/
def LinesChain : ℕ → List LineRange → ℕ → Prop
  | c, [], total => c = total
  | c, l :: rest, total => l.startByte = c ∧ c ≤ l.endByte ∧ LinesChain l.endByte rest total

theorem findCursorLine_spec_aux (total o : ℕ) :
    ∀ (lines : List LineRange) (c : ℕ), LinesChain c lines total → lines ≠ [] →
      c ≤ o → o ≤ total →
      ∃ i, findCursorLine total o lines = some i ∧ SpecSelectsLine o lines i := by
  intro lines
  induction lines with
  | nil => intro c _ hne _ _; exact absurd rfl hne
  | cons l rest ih =>
    intro c hchain _ hco hot
    obtain ⟨hstart, hse, hrest⟩ : l.startByte = c ∧ c ≤ l.endByte ∧ LinesChain l.endByte rest total := hchain
    have hso : l.startByte ≤ o := by omega
    by_cases h1 : o < l.endByte
    · refine ⟨0, ?_, Or.inl ⟨hso, h1⟩⟩
      unfold findCursorLine
      rw [if_pos (Or.inl ⟨hso, h1⟩)]
    · push_neg at h1
      cases rest with
      | nil =>
        have htot : l.endByte = total := hrest
        have heq : o = l.endByte := by omega
        refine ⟨0, ?_, Or.inr ⟨heq, Or.inl rfl⟩⟩
        unfold findCursorLine
        rw [if_pos (Or.inr (Or.inl ⟨heq, Or.inl rfl⟩))]
      | cons r rest' =>
        have hrstart : r.startByte = l.endByte :=
          (show r.startByte = l.endByte ∧ l.endByte ≤ r.endByte ∧
            LinesChain r.endByte rest' total from hrest).1
        have hcond : ¬((l.startByte ≤ o ∧ o < l.endByte) ∨
            (o = l.endByte ∧ ((r :: rest') = ([] : List LineRange) ∨
              o < ((r :: rest').headD ⟨0, 0⟩).startByte)) ∨
            (o = total ∧ (r :: rest') = ([] : List LineRange))) := by
          push_neg
          refine ⟨fun _ => by omega, ?_, fun _ => by simp⟩
          intro heq
          refine ⟨by simp, ?_⟩
          simp only [List.headD_cons]
          omega
        obtain ⟨i, hfind, hspec⟩ := ih l.endByte hrest (by simp) h1 hot
        refine ⟨i + 1, ?_, hspec⟩
        unfold findCursorLine
        rw [if_neg hcond, hfind]
        rfl

/-- C6: for any block whose line byte ranges form the contiguous partition
maintained by layout and any (pre-clamped) offset o ≤ |T|, the
line-selection loop of `GetCursorInfoFromByteOffset` returns a line
satisfying the spec's edge rule: o lies in the line's byte range, or o
equals the line's end byte and the next line either does not exist or
starts strictly after o. -/
theorem findCursorLine_spec (lines : List LineRange) (total o : ℕ)
    (hwf : LinesChain 0 lines total) (hne : lines ≠ []) (ho : o ≤ total) :
    ∃ i, findCursorLine total o lines = some i ∧ SpecSelectsLine o lines i :=
  findCursorLine_spec_aux total o lines 0 hwf hne (Nat.zero_le o) ho

/-- Witness for C6 on the S2 block shape: lines [0,3) and [3,5) over 5
bytes at offset 3 (the hard-newline boundary). -/
theorem findCursorLine_spec_witness :
    (LinesChain 0 [⟨0, 3⟩, ⟨3, 5⟩] 5 ∧ ([⟨0, 3⟩, ⟨3, 5⟩] : List LineRange) ≠ [] ∧ 3 ≤ 5) ∧
    (∃ i, findCursorLine 5 3 [⟨0, 3⟩, ⟨3, 5⟩] = some i ∧
      SpecSelectsLine 3 [⟨0, 3⟩, ⟨3, 5⟩] i) :=
  ⟨⟨by simp [LinesChain], by simp, by omega⟩,
   findCursorLine_spec [⟨0, 3⟩, ⟨3, 5⟩] 5 3 (by simp [LinesChain]) (by simp) (by omega)⟩

/-! ### Per-line bidi maps (finalizeCurrentLine, RaylibSDFTextEx.cpp:1613-1643) -/

/-- Per-line bidi maps stored on a `LineLayoutInfo`: both maps are resized
to the line's UTF-16 length and filled from the same `UBiDi` object
(`ubidi_getVisualMap` / `ubidi_getLogicalMap`, RaylibSDFTextEx.cpp:1628-1633).
The ICU bidi engine is modelled by its documented interface contract: the
reordering of a line of n UTF-16 code units is a permutation σ of `Fin n`
taking logical positions to visual positions; `ubidi_getLogicalMap`
tabulates σ and `ubidi_getVisualMap` tabulates its inverse.  The pair is
(visualToLogicalMap, logicalToVisualMap). -/
def storeLineBidiMaps (n : ℕ) (σ : Equiv.Perm (Fin n)) : List ℕ × List ℕ :=
  ((List.finRange n).map (fun v => ((σ.symm v : Fin n) : ℕ)),
   (List.finRange n).map (fun l => ((σ l : Fin n) : ℕ)))

theorem getD_map_finRange (n : ℕ) (f : Fin n → ℕ) (i : ℕ) (hi : i < n) :
    ((List.finRange n).map f).getD i 0 = f ⟨i, hi⟩ := by
  rw [List.getD_eq_getElem _ _ (by simpa using hi)]
  simp

/-- C5: for every line and every logical UTF-16 index l within it, the
stored per-line bidi maps are mutually inverse:
`visualToLogicalMap[logicalToVisualMap[l]] = l`. -/
theorem storeLineBidiMaps_inverse (n : ℕ) (σ : Equiv.Perm (Fin n)) (l : ℕ) (hl : l < n) :
    (storeLineBidiMaps n σ).1.getD ((storeLineBidiMaps n σ).2.getD l 0) 0 = l := by
  have hlt : ((σ ⟨l, hl⟩ : Fin n) : ℕ) < n := (σ ⟨l, hl⟩).isLt
  unfold storeLineBidiMaps
  rw [getD_map_finRange n _ l hl, getD_map_finRange n _ _ hlt]
  simp

/-- Witness for C5 at a concrete three-unit line reordered by the
permutation swapping visual positions 0 and 2, at logical index 0. -/
theorem storeLineBidiMaps_inverse_witness :
    0 < 3 ∧
    (storeLineBidiMaps 3 (Equiv.swap 0 2)).1.getD
      ((storeLineBidiMaps 3 (Equiv.swap 0 2)).2.getD 0 0) 0 = 0 :=
  ⟨by omega, storeLineBidiMaps_inverse 3 (Equiv.swap 0 2) 0 (by omega)⟩

/-! ### Segmentation and line accumulation loop (LayoutStyledText,
RaylibSDFTextEx.cpp:1072-1376; finalizeCurrentLine, RaylibSDFTextEx.cpp:1429-1450,
1645) -/

/-- UTF-8 byte length of a single UTF-16 code unit outside a surrogate
pair. -/
def utf8CharLen (c : ℕ) : ℕ := if c < 0x80 then 1 else if c < 0x800 then 2 else 3

/-- Byte length of the UTF-8 encoding of a UTF-16 code-unit sequence
(`Utf16ToUtf8(...).length()`, RaylibSDFTextEx.cpp:337-358): ASCII 1 byte,
up to U+07FF 2 bytes, a high+low surrogate pair 4 bytes (one supplementary
codepoint), any other unit — including an unpaired surrogate, which the
converter substitutes — 3 bytes. -/
def utf8Len : List ℕ → ℕ
  | [] => 0
  | [c] => utf8CharLen c
  | c :: c2 :: rest =>
    if 0xD800 ≤ c ∧ c < 0xDC00 ∧ 0xDC00 ≤ c2 ∧ c2 < 0xE000 then 4 + utf8Len rest
    else utf8CharLen c + utf8Len (c2 :: rest)

theorem utf8CharLen_pos (c : ℕ) : 1 ≤ utf8CharLen c := by
  unfold utf8CharLen
  split_ifs <;> omega

theorem utf8CharLen_le_three (c : ℕ) : utf8CharLen c ≤ 3 := by
  unfold utf8CharLen
  split_ifs <;> omega

theorem length_le_utf8Len : ∀ l : List ℕ, l.length ≤ utf8Len l
  | [] => Nat.le_refl 0
  | [c] => by simpa [utf8Len] using utf8CharLen_pos c
  | c :: c2 :: rest => by
    simp only [utf8Len, List.length_cons]
    split_ifs with h
    · have := length_le_utf8Len rest
      omega
    · have := length_le_utf8Len (c2 :: rest)
      have := utf8CharLen_pos c
      simp only [List.length_cons] at *
      omega

theorem utf8Len_append_ge : ∀ a b : List ℕ, utf8Len a + b.length ≤ utf8Len (a ++ b)
  | [], b => by
    simp only [List.nil_append, utf8Len]
    have := length_le_utf8Len b
    omega
  | [c], b => by
    cases b with
    | nil =>
      simp only [List.append_nil, List.length_nil, Nat.add_zero]
      exact Nat.le_refl _
    | cons c2 b2 =>
      simp only [List.cons_append, List.nil_append, utf8Len, List.length_cons]
      split_ifs with h
      · have h1 := length_le_utf8Len b2
        have h2 := utf8CharLen_le_three c
        simp only [utf8Len] at *
        omega
      · have h1 := length_le_utf8Len (c2 :: b2)
        simp only [List.length_cons] at h1 ⊢
        omega
  | c :: c2 :: rest, b => by
    have ih1 := utf8Len_append_ge rest b
    have ih2 := utf8Len_append_ge (c2 :: rest) b
    simp only [List.cons_append, utf8Len, List.append_eq] at ih1 ih2 ⊢
    split_ifs <;> omega

theorem utf8Len_append_le (a b : List ℕ) : utf8Len a ≤ utf8Len (a ++ b) := by
  have h1 := utf8Len_append_ge a b
  omega

theorem utf8Len_take_mono (t : List ℕ) {i j : ℕ} (h : i ≤ j) :
    utf8Len (t.take i) ≤ utf8Len (t.take j) := by
  have heq : t.take j = t.take i ++ ((t.drop i).take (j - i)) := by
    rw [← List.take_add]
    congr 1
    omega
  rw [heq]
  exact utf8Len_append_le _ _

theorem utf8Len_take_strict (t : List ℕ) {i j : ℕ} (hij : i < j) (hj : j ≤ t.length) :
    utf8Len (t.take i) < utf8Len (t.take j) := by
  have heq : t.take j = t.take i ++ ((t.drop i).take (j - i)) := by
    rw [← List.take_add]
    congr 1
    omega
  have hlen : ((t.drop i).take (j - i)).length = j - i := by
    simp only [List.length_take, List.length_drop]
    omega
  have := utf8Len_append_ge (t.take i) ((t.drop i).take (j - i))
  rw [heq]
  omega

/-- Line record fields the partition invariant concerns
(`LineLayoutInfo.sourceTextByteStartIndexInBlockText`,
`sourceTextByteEndIndexInBlockText`, `numElementsInLine`,
text_engine.h:272-293). -/
structure LineRec where
  startByte : ℕ
  endByte : ℕ
  numElems : ℕ
  deriving DecidableEq

/-- Block under construction: committed elements and finalized lines. -/
structure Block where
  elements : List Elem
  lines : List LineRec
  deriving DecidableEq

/-- Loop state of LayoutStyledText's accumulation loop
(RaylibSDFTextEx.cpp:1072-1080): pending elements, committed width, the
current line's start byte (the line-info template) and the
first-line-of-paragraph flag. -/
structure LoopState where
  blk : Block
  pending : List Elem
  committed : ℚ
  lineStartU8 : ℕ
  isFirstLine : Bool
  deriving DecidableEq

/-- Translation of `finalizeCurrentLine` restricted to the fields the
partition invariant concerns (RaylibSDFTextEx.cpp:1429-1450, 1645): the
guard at lines 1431-1437 skips an empty pending line that did not advance
the text position; otherwise the pending elements are moved into the block
and a line record `[lineStart, nextLineStart)` is appended. -/
def finalizeLineModel (textLenU8 : ℕ) (st : LoopState) (nextLineStart : ℕ) : Block :=
  if st.pending = [] ∧ ¬(st.blk.lines = [] ∧ textLenU8 = 0 ∧ st.lineStartU8 = 0) ∧
      nextLineStart ≤ st.lineStartU8 ∧ textLenU8 ≠ 0 ∧ st.lineStartU8 ≠ 0 then
    st.blk
  else
    { elements := st.blk.elements ++ st.pending,
      lines := st.blk.lines ++ [⟨st.lineStartU8, nextLineStart, st.pending.length⟩] }

/-- `ubrk_following(iter, p)`: a boundary strictly after p, if any; the ICU
break iterator is modelled as its list of boundary positions, in ascending
order, so the first boundary after p is the next break
(RaylibSDFTextEx.cpp:1085). -/
def ubrkFollowing (breaks : List ℕ) (p : ℕ) : Option ℕ :=
  (breaks.filter (fun b => p < b)).head?

theorem ubrkFollowing_gt (breaks : List ℕ) (p v : ℕ)
    (h : ubrkFollowing breaks p = some v) : p < v := by
  unfold ubrkFollowing at h
  cases hf : breaks.filter (fun b => p < b) with
  | nil => rw [hf] at h; simp at h
  | cons x xs =>
    rw [hf] at h
    simp only [List.head?_cons, Option.some.injEq] at h
    have hx : x ∈ breaks.filter (fun b => p < b) := by
      rw [hf]; exact List.mem_cons_self _ _
    have hp := List.of_mem_filter hx
    simp only [decide_eq_true_eq] at hp
    omega

/-- Next break position as the loop computes it
(RaylibSDFTextEx.cpp:1085-1089): `ubrk_following`, with `UBRK_DONE` mapped
to the text length, the defensive `currentU16BreakPos++` when the iterator
does not advance, and the clamp to the text length. -/
def nextBreakPos (breaks : List ℕ) (len last : ℕ) : ℕ :=
  match ubrkFollowing breaks last with
  | none => len
  | some v => min (if v = last ∧ v < len then v + 1 else v) len

theorem nextBreakPos_gt (breaks : List ℕ) (len last : ℕ) (h : last < len) :
    last < nextBreakPos breaks len last := by
  unfold nextBreakPos
  cases hf : ubrkFollowing breaks last with
  | none => simpa using h
  | some v =>
    have hv := ubrkFollowing_gt breaks last v hf
    simp only []
    split_ifs <;> omega

theorem nextBreakPos_le (breaks : List ℕ) (len last : ℕ) :
    nextBreakPos breaks len last ≤ len := by
  unfold nextBreakPos
  cases hf : ubrkFollowing breaks last with
  | none => simp
  | some v => simp only []; omega

/-- Position of the first hard newline (U+000A) in a UTF-16 segment
(`segmentU16.find(u'\\n')`, RaylibSDFTextEx.cpp:1094). -/
def firstNewlinePos : List ℕ → Option ℕ
  | [] => none
  | c :: rest => if c = 10 then some 0 else (firstNewlinePos rest).map (fun k => k + 1)

theorem firstNewlinePos_lt_length :
    ∀ (l : List ℕ) (k : ℕ), firstNewlinePos l = some k → k < l.length
  | [], k => by simp [firstNewlinePos]
  | c :: rest, k => by
    unfold firstNewlinePos
    split_ifs with h
    · intro hk
      simp only [Option.some.injEq] at hk
      simp [← hk]
    · intro hk
      simp only [Option.map_eq_some'] at hk
      obtain ⟨k', hk', rfl⟩ := hk
      have := firstNewlinePos_lt_length rest k' hk'
      simp only [List.length_cons]
      omega

/-- The current break-delimited segment, as UTF-16 code units
(`fullU16Text_local.substr(lastU16BreakPos, currentU16BreakPos -
lastU16BreakPos)`, RaylibSDFTextEx.cpp:1091). -/
def segU16F (text : List ℕ) (last current : ℕ) : List ℕ :=
  (text.drop last).take (current - last)

/-- Length of the part of the segment that is shaped: up to the first hard
newline, else the whole segment (RaylibSDFTextEx.cpp:1093-1095). -/
def segToShapeLenF (text : List ℕ) (last current : ℕ) : ℕ :=
  match firstNewlinePos (segU16F text last current) with
  | some k => k
  | none => current - last

/-- Whether the segment contains a hard newline
(RaylibSDFTextEx.cpp:1093-1095). -/
def segHasNL (text : List ℕ) (last current : ℕ) : Bool :=
  (firstNewlinePos (segU16F text last current)).isSome

/-- Wrap-break check plus element commitment for one segment
(RaylibSDFTextEx.cpp:1320-1347): when the break condition holds, the
pending line is finalized with the segment's start byte as its end and a
fresh pending line starts there (lines 1324-1336); then, when the
segment's elements are non-empty, they are appended to the pending line
and the committed width grows by the segment width (lines 1338-1347). -/
def accumulate (text : List ℕ) (last : ℕ) (st : LoopState) (brk : Bool)
    (elems : List Elem) (w : ℚ) : LoopState :=
  let st1 : LoopState := if brk then
      ⟨finalizeLineModel (utf8Len text) st (utf8Len (text.take last)), [], 0,
        utf8Len (text.take last), false⟩
    else st
  if elems = [] then st1
  else ⟨st1.blk, st1.pending ++ elems, st1.committed + w, st1.lineStartU8, st1.isFirstLine⟩

/-- The segmentation loop of `LayoutStyledText`
(RaylibSDFTextEx.cpp:1083-1368), processing break-delimited segments from
u16 position `last`.  `text` is the paragraph text as UTF-16 code units;
`shape s n` / `segWidth s n` give the positioned elements and the advance
width produced by shaping the `n` code units at u16 position `s` (shaping
is deterministic for fixed engine state, §4.2.4); an empty segment-to-shape
produces no elements and zero width (the shaping block is guarded by
`!segmentToShapeU16.empty()`, line 1102).  A hard newline finalizes the
pending line at the byte just after the newline and resumes there (lines
1349-1366).  Since every iteration strictly advances `last`, fuel
`text.length + 1` runs the loop to completion. -/
def layoutGo (text breaks : List ℕ) (shape : ℕ → ℕ → List Elem)
    (segWidth : ℕ → ℕ → ℚ) (wrapWidth indent : ℚ) :
    ℕ → ℕ → LoopState → LoopState
  | 0, _, st => st
  | fuel + 1, last, st =>
    if last < text.length then
      let current := nextBreakPos breaks text.length last
      let stl := segToShapeLenF text last current
      let st2 := accumulate text last st
        (shouldBreakLine wrapWidth indent st.committed
          (if stl = 0 then 0 else segWidth last stl) st.isFirstLine st.pending.isEmpty)
        (if stl = 0 then [] else shape last stl)
        (if stl = 0 then 0 else segWidth last stl)
      if segHasNL text last current then
        layoutGo text breaks shape segWidth wrapWidth indent fuel (last + stl + 1)
          ⟨finalizeLineModel (utf8Len text) st2 (utf8Len (text.take (last + stl + 1))), [], 0,
            utf8Len (text.take (last + stl + 1)), false⟩
      else
        layoutGo text breaks shape segWidth wrapWidth indent fuel current st2
    else st

/-- `LayoutStyledText`'s driver around the loop: run the accumulation loop
from position 0 with an empty block, then finalize the trailing pending
line when it is non-empty or no line was produced yet
(RaylibSDFTextEx.cpp:1370-1376), passing the total byte length as the
line's end. -/
def layoutStyledTextModel (text breaks : List ℕ) (shape : ℕ → ℕ → List Elem)
    (segWidth : ℕ → ℕ → ℚ) (wrapWidth indent : ℚ) : Block :=
  let st0 : LoopState := ⟨⟨[], []⟩, [], 0, 0, true⟩
  let stF := layoutGo text breaks shape segWidth wrapWidth indent (text.length + 1) 0 st0
  if stF.pending ≠ [] ∨ stF.blk.lines = [] then
    finalizeLineModel (utf8Len text) stF (utf8Len text)
  else stF.blk

/-- Total element count recorded on the lines. -/
def sumNumElems (lines : List LineRec) : ℕ := (lines.map (fun r => r.numElems)).sum

/-- The lines' byte ranges tile `[c, total)`: each line starts where the
previous ended, ranges are well formed, and the last ends at `total`. -/
def LinesCover : ℕ → List LineRec → ℕ → Prop
  | c, [], total => c = total
  | c, r :: rest, total => r.startByte = c ∧ c ≤ r.endByte ∧ LinesCover r.endByte rest total

/-- Loop invariant of the accumulation loop at u16 position `last`:
elements in the block are exactly those counted on its lines; the finalized
lines tile `[0, lineStartU8)`; the current line's start byte is the UTF-8
length of some prefix not beyond `last`; and when the pending line is empty
the current line starts exactly at `last`'s byte position. -/
structure LoopInv (text : List ℕ) (last : ℕ) (st : LoopState) : Prop where
  count : st.blk.elements.length = sumNumElems st.blk.lines
  cover : LinesCover 0 st.blk.lines st.lineStartU8
  startIsPrefix : ∃ p, p ≤ last ∧ p ≤ text.length ∧ st.lineStartU8 = utf8Len (text.take p)
  pendingEmpty : st.pending = [] → st.lineStartU8 = utf8Len (text.take last)

theorem linesCover_append (r : LineRec) :
    ∀ (lines : List LineRec) (c d : ℕ), LinesCover c lines d → r.startByte = d →
      d ≤ r.endByte → LinesCover c (lines ++ [r]) r.endByte
  | [], c, d, h, hr1, hr2 => by
    have hc : c = d := h
    exact ⟨hr1.trans hc.symm, hc ▸ hr2, rfl⟩
  | l :: rest, c, d, h, hr1, hr2 => by
    obtain ⟨h1, h2, h3⟩ := h
    exact ⟨h1, h2, linesCover_append r rest l.endByte d h3 hr1 hr2⟩

theorem finalizeLineModel_spec (textLenU8 : ℕ) (st : LoopState) (next : ℕ)
    (hcount : st.blk.elements.length = sumNumElems st.blk.lines)
    (hcover : LinesCover 0 st.blk.lines st.lineStartU8)
    (hle : st.lineStartU8 ≤ next) :
    (finalizeLineModel textLenU8 st next).elements.length =
      sumNumElems (finalizeLineModel textLenU8 st next).lines ∧
    LinesCover 0 (finalizeLineModel textLenU8 st next).lines next := by
  unfold finalizeLineModel
  split_ifs with h
  · have heq : st.lineStartU8 = next := le_antisymm hle h.2.2.1
    exact ⟨hcount, heq ▸ hcover⟩
  · refine ⟨?_, ?_⟩
    · simp only [sumNumElems, List.map_append, List.sum_append, List.length_append,
        List.map_cons, List.sum_cons, List.map_nil, List.sum_nil] at hcount ⊢
      omega
    · exact linesCover_append ⟨st.lineStartU8, next, st.pending.length⟩ st.blk.lines 0
        st.lineStartU8 hcover rfl hle

/-- The wrap-break part of `accumulate` (lines 1324-1336). -/
def accumulateBase (text : List ℕ) (last : ℕ) (st : LoopState) (brk : Bool) : LoopState :=
  if brk then
    ⟨finalizeLineModel (utf8Len text) st (utf8Len (text.take last)), [], 0,
      utf8Len (text.take last), false⟩
  else st

theorem accumulateBase_inv (text : List ℕ) (last : ℕ) (st : LoopState) (brk : Bool)
    (hlast : last ≤ text.length) (hinv : LoopInv text last st) :
    LoopInv text last (accumulateBase text last st brk) := by
  cases brk with
  | false => simpa [accumulateBase] using hinv
  | true =>
    obtain ⟨p, hp1, hp2, hp3⟩ := hinv.startIsPrefix
    have hle : st.lineStartU8 ≤ utf8Len (text.take last) := by
      rw [hp3]; exact utf8Len_take_mono text hp1
    obtain ⟨hc1, hc2⟩ := finalizeLineModel_spec (utf8Len text) st (utf8Len (text.take last))
      hinv.count hinv.cover hle
    exact { count := hc1, cover := hc2,
            startIsPrefix := ⟨last, le_refl last, hlast, rfl⟩,
            pendingEmpty := fun _ => rfl }

theorem accumulate_inv (text : List ℕ) (last : ℕ) (st : LoopState) (brk : Bool)
    (elems : List Elem) (w : ℚ) (hlast : last ≤ text.length) (hinv : LoopInv text last st) :
    LoopInv text last (accumulate text last st brk elems w) ∧
    (elems ≠ [] → (accumulate text last st brk elems w).pending ≠ []) := by
  have hbase := accumulateBase_inv text last st brk hlast hinv
  by_cases he : elems = []
  · constructor
    · simpa [accumulate, accumulateBase, he] using hbase
    · intro hne; exact absurd he hne
  · have hacc : accumulate text last st brk elems w =
        ⟨(accumulateBase text last st brk).blk,
         (accumulateBase text last st brk).pending ++ elems,
         (accumulateBase text last st brk).committed + w,
         (accumulateBase text last st brk).lineStartU8,
         (accumulateBase text last st brk).isFirstLine⟩ := by
      simp [accumulate, accumulateBase, he]
    rw [hacc]
    constructor
    · exact { count := hbase.count, cover := hbase.cover,
              startIsPrefix := hbase.startIsPrefix,
              pendingEmpty := fun hp => absurd (List.append_eq_nil.mp hp).2 he }
    · intro _ hp
      exact he (List.append_eq_nil.mp hp).2

theorem LoopInv.mono_last (text : List ℕ) {last last' : ℕ} {st : LoopState}
    (h : last ≤ last') (hpend : st.pending ≠ []) (hinv : LoopInv text last st) :
    LoopInv text last' st :=
  { count := hinv.count, cover := hinv.cover,
    startIsPrefix := by
      obtain ⟨p, h1, h2, h3⟩ := hinv.startIsPrefix
      exact ⟨p, h1.trans h, h2, h3⟩,
    pendingEmpty := fun hp => absurd hp hpend }

theorem newlineState_inv (text : List ℕ) (last stl : ℕ) (st2 : LoopState)
    (hinv2 : LoopInv text last st2) (hbound : last + stl + 1 ≤ text.length) :
    LoopInv text (last + stl + 1)
      ⟨finalizeLineModel (utf8Len text) st2 (utf8Len (text.take (last + stl + 1))), [], 0,
        utf8Len (text.take (last + stl + 1)), false⟩ := by
  obtain ⟨p, hp1, hp2, hp3⟩ := hinv2.startIsPrefix
  have hle : st2.lineStartU8 ≤ utf8Len (text.take (last + stl + 1)) := by
    rw [hp3]; exact utf8Len_take_mono text (by omega)
  obtain ⟨hc1, hc2⟩ := finalizeLineModel_spec (utf8Len text) st2
    (utf8Len (text.take (last + stl + 1))) hinv2.count hinv2.cover hle
  exact { count := hc1, cover := hc2,
          startIsPrefix := ⟨last + stl + 1, le_refl _, hbound, rfl⟩,
          pendingEmpty := fun _ => rfl }

theorem segHasNL_bound (text : List ℕ) (last current : ℕ)
    (h : segHasNL text last current = true) :
    last + segToShapeLenF text last current + 1 ≤ current := by
  unfold segHasNL at h
  unfold segToShapeLenF
  cases hf : firstNewlinePos (segU16F text last current) with
  | none => rw [hf] at h; simp at h
  | some k =>
    simp only []
    have hk := firstNewlinePos_lt_length _ k hf
    have hlen : (segU16F text last current).length ≤ current - last := by
      unfold segU16F
      simp [List.length_take, List.length_drop]
    omega

theorem segNoNL_len (text : List ℕ) (last current : ℕ)
    (h : segHasNL text last current = false) :
    segToShapeLenF text last current = current - last := by
  unfold segHasNL at h
  unfold segToShapeLenF
  cases hf : firstNewlinePos (segU16F text last current) with
  | none => simp
  | some k => rw [hf] at h; simp at h

theorem layoutGo_inv (text breaks : List ℕ) (shape : ℕ → ℕ → List Elem)
    (segWidth : ℕ → ℕ → ℚ) (wrapWidth indent : ℚ)
    (hshape : ∀ s n, 0 < n → shape s n ≠ []) :
    ∀ (fuel last : ℕ) (st : LoopState),
      text.length - last < fuel → last ≤ text.length → LoopInv text last st →
      LoopInv text text.length
        (layoutGo text breaks shape segWidth wrapWidth indent fuel last st) := by
  intro fuel
  induction fuel with
  | zero => intro last st hfuel _ _; exact absurd hfuel (by omega)
  | succ fuel ih =>
    intro last st hfuel hlast hinv
    rw [layoutGo]
    by_cases hlt : last < text.length
    · rw [if_pos hlt]
      simp only []
      have hcur_gt : last < nextBreakPos breaks text.length last :=
        nextBreakPos_gt breaks text.length last hlt
      have hcur_le : nextBreakPos breaks text.length last ≤ text.length :=
        nextBreakPos_le breaks text.length last
      set current := nextBreakPos breaks text.length last with hcur
      set stl := segToShapeLenF text last current with hstl
      set elems : List Elem := if stl = 0 then [] else shape last stl with helems
      set w : ℚ := if stl = 0 then 0 else segWidth last stl with hw
      set brk := shouldBreakLine wrapWidth indent st.committed w st.isFirstLine
        st.pending.isEmpty with hbrk
      set st2 := accumulate text last st brk elems w with hst2
      obtain ⟨hinv2, hpendne⟩ := accumulate_inv text last st brk elems w hlast hinv
      by_cases hnl : segHasNL text last current = true
      · rw [if_pos hnl]
        have hbound : last + stl + 1 ≤ current := by
          rw [hstl]; exact segHasNL_bound text last current hnl
        exact ih (last + stl + 1)
          ⟨finalizeLineModel (utf8Len text) st2 (utf8Len (text.take (last + stl + 1))), [], 0,
            utf8Len (text.take (last + stl + 1)), false⟩
          (by omega) (by omega)
          (newlineState_inv text last stl st2 hinv2 (by omega))
      · rw [if_neg hnl]
        have hstl_eq : stl = current - last := by
          rw [hstl]
          exact segNoNL_len text last current (by simpa using hnl)
        have hstl_pos : 0 < stl := by omega
        have helems_ne : elems ≠ [] := by
          rw [helems, if_neg (by omega)]
          exact hshape last stl hstl_pos
        have hpend : st2.pending ≠ [] := hpendne helems_ne
        exact ih current st2 (by omega) hcur_le
          (LoopInv.mono_last text (le_of_lt hcur_gt) hpend hinv2)
    · rw [if_neg hlt]
      have heq : last = text.length := by omega
      exact heq ▸ hinv

theorem layoutStyledTextModel_post (text breaks : List ℕ) (shape : ℕ → ℕ → List Elem)
    (segWidth : ℕ → ℕ → ℚ) (wrapWidth indent : ℚ)
    (hshape : ∀ s n, 0 < n → shape s n ≠ []) :
    (layoutStyledTextModel text breaks shape segWidth wrapWidth indent).elements.length =
      sumNumElems (layoutStyledTextModel text breaks shape segWidth wrapWidth indent).lines ∧
    (layoutStyledTextModel text breaks shape segWidth wrapWidth indent).lines ≠ [] ∧
    LinesCover 0 (layoutStyledTextModel text breaks shape segWidth wrapWidth indent).lines
      (utf8Len text) := by
  have hinit : LoopInv text 0 ⟨⟨[], []⟩, [], 0, 0, true⟩ :=
    { count := rfl, cover := rfl,
      startIsPrefix := ⟨0, le_refl 0, Nat.zero_le _, rfl⟩,
      pendingEmpty := fun _ => rfl }
  have hpost := layoutGo_inv text breaks shape segWidth wrapWidth indent hshape
    (text.length + 1) 0 ⟨⟨[], []⟩, [], 0, 0, true⟩ (by omega) (Nat.zero_le _) hinit
  unfold layoutStyledTextModel
  simp only []
  set stF := layoutGo text breaks shape segWidth wrapWidth indent (text.length + 1) 0
    ⟨⟨[], []⟩, [], 0, 0, true⟩ with hstF
  obtain ⟨p, hp1, hp2, hp3⟩ := hpost.startIsPrefix
  have hfle : stF.lineStartU8 ≤ utf8Len text := by
    rw [hp3]
    calc utf8Len (text.take p) ≤ utf8Len (text.take text.length) := utf8Len_take_mono text hp2
    _ = utf8Len text := by rw [List.take_length]
  by_cases hc : stF.pending ≠ [] ∨ stF.blk.lines = []
  · rw [if_pos hc]
    obtain ⟨h1, h2⟩ := finalizeLineModel_spec (utf8Len text) stF (utf8Len text)
      hpost.count hpost.cover hfle
    refine ⟨h1, ?_, h2⟩
    unfold finalizeLineModel
    split_ifs with hskip
    · exfalso
      have hpend := hskip.1
      have hlines : stF.blk.lines = [] := by
        rcases hc with h | h
        · exact absurd hpend h
        · exact h
      have hstart0 : (0 : ℕ) = stF.lineStartU8 := by
        have hcov := hpost.cover
        rw [hlines] at hcov
        exact hcov
      exact hskip.2.2.2.2 hstart0.symm
    · simp
  · rw [if_neg hc]
    push_neg at hc
    obtain ⟨hpend, hlines⟩ := hc
    have hstart : stF.lineStartU8 = utf8Len text := by
      rw [hpost.pendingEmpty hpend, List.take_length]
    exact ⟨hpost.count, hlines, hstart ▸ hpost.cover⟩

/-- C2 as stated fails on the code: when shaping yields no elements (no
valid font is available), text after the last hard newline is never
finalized into a line.  Laying out "a\\nb" (u16 [97, 10, 98], word breaks
1, 2, 3) with element-less shaping yields a single line covering [0, 2) of
the 3-byte text: the line ranges do not partition [0, |T|). -/
theorem layout_partition_cex :
    (layoutStyledTextModel [97, 10, 98] [1, 2, 3] (fun _ _ => []) (fun _ _ => 0) 0 0).lines =
      [⟨0, 2, 0⟩] ∧
    utf8Len [97, 10, 98] = 3 ∧
    ¬ LinesCover 0 [⟨0, 2, 0⟩] 3 := by
  refine ⟨by decide, by decide, ?_⟩
  intro h
  have h23 : (2 : ℕ) = 3 := h.2.2
  omega

/-- C2 (amended): provided shaping yields at least one element for every
non-empty shaped segment (some valid font is available — the engine's
codepoint-unmappable policy normally guarantees a `.notdef` glyph), then
for every TextBlock the sum over lines of numElementsInLine equals the
total element count and the lines' byte ranges are non-overlapping and
contiguous, covering [0,|T|) with each line's end byte equal to the next
line's start byte; in particular for the single span "ab\\ncd" with
wrap_width = 0 there are exactly two lines covering [0,3) and [3,5). -/
theorem layout_partition_amended :
    (∀ (text breaks : List ℕ) (shape : ℕ → ℕ → List Elem) (segWidth : ℕ → ℕ → ℚ)
        (wrapWidth indent : ℚ), (∀ s n, 0 < n → shape s n ≠ []) →
      (layoutStyledTextModel text breaks shape segWidth wrapWidth indent).elements.length =
        sumNumElems (layoutStyledTextModel text breaks shape segWidth wrapWidth indent).lines ∧
      (layoutStyledTextModel text breaks shape segWidth wrapWidth indent).lines ≠ [] ∧
      LinesCover 0 (layoutStyledTextModel text breaks shape segWidth wrapWidth indent).lines
        (utf8Len text)) ∧
    (layoutStyledTextModel [97, 98, 10, 99, 100] [2, 3, 5]
      (fun s n => (List.range n).map (fun i => 100 * s + i)) (fun _ n => (n : ℚ)) 0 0).lines =
      [⟨0, 3, 2⟩, ⟨3, 5, 2⟩] := by
  constructor
  · intro text breaks shape segWidth wrapWidth indent hshape
    exact layoutStyledTextModel_post text breaks shape segWidth wrapWidth indent hshape
  · decide

/-- Witness instantiating the amended C2 theorem's universal part at the S2
input, with one element token per shaped code unit. -/
theorem layout_partition_amended_witness :
    (∀ s n : ℕ, 0 < n → ((List.range n).map (fun i => 100 * s + i) : List Elem) ≠ []) ∧
    ((layoutStyledTextModel [97, 98, 10, 99, 100] [2, 3, 5]
        (fun s n => (List.range n).map (fun i => 100 * s + i))
        (fun _ n => (n : ℚ)) 0 0).elements.length =
      sumNumElems (layoutStyledTextModel [97, 98, 10, 99, 100] [2, 3, 5]
        (fun s n => (List.range n).map (fun i => 100 * s + i))
        (fun _ n => (n : ℚ)) 0 0).lines ∧
     (layoutStyledTextModel [97, 98, 10, 99, 100] [2, 3, 5]
        (fun s n => (List.range n).map (fun i => 100 * s + i))
        (fun _ n => (n : ℚ)) 0 0).lines ≠ [] ∧
     LinesCover 0 (layoutStyledTextModel [97, 98, 10, 99, 100] [2, 3, 5]
        (fun s n => (List.range n).map (fun i => 100 * s + i))
        (fun _ n => (n : ℚ)) 0 0).lines (utf8Len [97, 98, 10, 99, 100])) :=
  ⟨fun s n hn => by
      simp only [ne_eq, List.map_eq_nil_iff, List.range_eq_nil]
      omega,
   layout_partition_amended.1 [97, 98, 10, 99, 100] [2, 3, 5]
     (fun s n => (List.range n).map (fun i => 100 * s + i)) (fun _ n => (n : ℚ)) 0 0
     (fun s n hn => by
       simp only [ne_eq, List.map_eq_nil_iff, List.range_eq_nil]
       omega)⟩

/-! ### Layout determinism and cache-independence (LayoutStyledText,
RaylibSDFTextEx.cpp:987-1409, consuming getCachedGlyphByGID,
RaylibSDFTextEx.cpp:897-980) -/

/-- Value cached per glyph: metrics captured at the cached pixel size
(`FTCachedGlyph.advanceX_at_cached_size` / `ascent...` / `descent...`)
plus the atlas rectangle origin assigned by the shelf packer
(`GlyphRenderInfo.atlasRect`), which depends on packing state. -/
structure CachedGlyph where
  advanceX : ℚ
  ascent : ℚ
  descent : ℚ
  atlasX : ℕ
  atlasY : ℕ
  deriving DecidableEq

/-- Value-carrying glyph cache together with the shelf-packer cursor (the
pack position the next rasterized glyph receives). -/
structure ValueCache where
  entries : List (GlyphKey × CachedGlyph)
  packCursor : ℕ
  deriving DecidableEq

/-- Rasterizer oracle: FreeType rendering is deterministic, so the metrics
captured at the cached pixel size are a function of the glyph key
(advance-x, ascent, descent). -/
abbrev MetricsOracle := GlyphKey → ℚ × ℚ × ℚ

/-- Value semantics of `getCachedGlyphByGID` (RaylibSDFTextEx.cpp:897-980):
a hit returns the stored value and splices it to the front; a miss renders
(deterministic metrics), packs at the current cursor — so the atlas rect
depends on the pack state — evicts the LRU entry when full, and inserts at
the front. -/
def getCachedGlyphModel (render : MetricsOracle) (capacity : ℕ) (c : ValueCache)
    (k : GlyphKey) : CachedGlyph × ValueCache :=
  match c.entries.find? (fun e => decide (e.1 = k)) with
  | some e =>
    (e.2, ⟨e :: c.entries.eraseP (fun e2 => decide (e2.1 = k)), c.packCursor⟩)
  | none =>
    let m := render k
    let v : CachedGlyph := ⟨m.1, m.2.1, m.2.2, c.packCursor, c.packCursor⟩
    let entries1 := if capacity ≤ c.entries.length then c.entries.dropLast else c.entries
    (v, ⟨(k, v) :: entries1, c.packCursor + 1⟩)

/-- Cache coherence: every stored entry's metrics are what the rasterizer
produces for its key (atlas rects are unconstrained). -/
def CacheCoherent (render : MetricsOracle) (c : ValueCache) : Prop :=
  ∀ e ∈ c.entries, (e.2.advanceX, e.2.ascent, e.2.descent) = render e.1

theorem getCachedGlyphModel_spec (render : MetricsOracle) (capacity : ℕ)
    (c : ValueCache) (k : GlyphKey) (hcoh : CacheCoherent render c) :
    ((getCachedGlyphModel render capacity c k).1.advanceX,
     (getCachedGlyphModel render capacity c k).1.ascent,
     (getCachedGlyphModel render capacity c k).1.descent) = render k ∧
    CacheCoherent render (getCachedGlyphModel render capacity c k).2 := by
  unfold getCachedGlyphModel
  cases hfind : c.entries.find? (fun e => decide (e.1 = k)) with
  | some e =>
    have hek : e.1 = k := by
      have := List.find?_some hfind
      simpa using this
    have hmem : e ∈ c.entries := List.mem_of_find?_eq_some hfind
    constructor
    · rw [← hek]
      exact hcoh e hmem
    · intro e2 he2
      rcases List.mem_cons.mp he2 with h | h
      · rw [h]; exact hcoh e hmem
      · exact hcoh e2 ((List.eraseP_sublist c.entries).subset h)
  | none =>
    constructor
    · rfl
    · intro e2 he2
      rcases List.mem_cons.mp he2 with h | h
      · rw [h]
      · by_cases hfull : capacity ≤ c.entries.length
        · rw [if_pos hfull] at h
          exact hcoh e2 (c.entries.dropLast_sublist.subset h)
        · rw [if_neg hfull] at h
          exact hcoh e2 h

/-- Positioned glyph fields of the model: provenance key, pen position,
advance, metrics, and the atlas rect origin copied from the cache
(`PositionedGlyph.position/xAdvance/ascent/descent/renderInfo`,
RaylibSDFTextEx.cpp:1228-1309). -/
structure PositionedGlyphM where
  key : GlyphKey
  penX : ℚ
  xAdvance : ℚ
  ascent : ℚ
  descent : ℚ
  atlasX : ℕ
  atlasY : ℕ
  deriving DecidableEq

/-- Per-glyph layout body threading the glyph cache
(RaylibSDFTextEx.cpp:1228-1309): each shaped glyph's render data comes from
the get-or-create call, its pen position from the accumulated advance.  The
shaped glyph-key stream is itself a pure function of the spans, the
paragraph style and the font registry (shaping consults no cache state). -/
def layoutWithCache (render : MetricsOracle) (capacity : ℕ) :
    List GlyphKey → ℚ → ValueCache → List PositionedGlyphM × ValueCache
  | [], _, c => ([], c)
  | k :: ks, penX, c =>
    let r := getCachedGlyphModel render capacity c k
    let rest := layoutWithCache render capacity ks (penX + r.1.advanceX) r.2
    (⟨k, penX, r.1.advanceX, r.1.ascent, r.1.descent, r.1.atlasX, r.1.atlasY⟩ :: rest.1, rest.2)

/-- Observable projection of a positioned glyph: everything except the
atlas rectangle. -/
def obsGlyph (g : PositionedGlyphM) : GlyphKey × ℚ × ℚ × ℚ × ℚ :=
  (g.key, g.penX, g.xAdvance, g.ascent, g.descent)

theorem layoutWithCache_coherent (render : MetricsOracle) (capacity : ℕ) :
    ∀ (keys : List GlyphKey) (penX : ℚ) (c : ValueCache), CacheCoherent render c →
      CacheCoherent render (layoutWithCache render capacity keys penX c).2 := by
  intro keys
  induction keys with
  | nil => intro penX c hc; exact hc
  | cons k ks ih =>
    intro penX c hc
    exact ih _ _ (getCachedGlyphModel_spec render capacity c k hc).2

theorem layoutWithCache_obs_eq (render : MetricsOracle) (capacity : ℕ) :
    ∀ (keys : List GlyphKey) (penX : ℚ) (c₁ c₂ : ValueCache),
      CacheCoherent render c₁ → CacheCoherent render c₂ →
      (layoutWithCache render capacity keys penX c₁).1.map obsGlyph =
        (layoutWithCache render capacity keys penX c₂).1.map obsGlyph := by
  intro keys
  induction keys with
  | nil => intro penX c₁ c₂ _ _; rfl
  | cons k ks ih =>
    intro penX c₁ c₂ hc₁ hc₂
    obtain ⟨hm₁, hcoh₁⟩ := getCachedGlyphModel_spec render capacity c₁ k hc₁
    obtain ⟨hm₂, hcoh₂⟩ := getCachedGlyphModel_spec render capacity c₂ k hc₂
    have hadv : (getCachedGlyphModel render capacity c₁ k).1.advanceX =
        (getCachedGlyphModel render capacity c₂ k).1.advanceX := by
      have := hm₁.trans hm₂.symm
      exact (Prod.mk.injEq _ _ _ _ ▸ this).1
    have hasc : (getCachedGlyphModel render capacity c₁ k).1.ascent =
        (getCachedGlyphModel render capacity c₂ k).1.ascent := by
      have h := hm₁.trans hm₂.symm
      have h2 := (Prod.mk.injEq _ _ _ _ ▸ h).2
      exact (Prod.mk.injEq _ _ _ _ ▸ h2).1
    have hdesc : (getCachedGlyphModel render capacity c₁ k).1.descent =
        (getCachedGlyphModel render capacity c₂ k).1.descent := by
      have h := hm₁.trans hm₂.symm
      have h2 := (Prod.mk.injEq _ _ _ _ ▸ h).2
      exact (Prod.mk.injEq _ _ _ _ ▸ h2).2
    simp only [layoutWithCache, List.map_cons, obsGlyph]
    rw [hadv, hasc, hdesc,
      ih (penX + (getCachedGlyphModel render capacity c₂ k).1.advanceX) _ _ hcoh₁ hcoh₂]

/-- C9: the observable layout (keys, pen positions, advances, metrics — all
fields except the atlas rectangle) is a function of the shaped input alone,
independent of the glyph-cache state, for any coherent cache; in
particular, running the same layout back to back — the second call seeing
the cache state the first produced — yields observably identical blocks,
while the atlas rectangles may differ. -/
theorem layout_deterministic (render : MetricsOracle) (capacity : ℕ)
    (keys : List GlyphKey) (penX : ℚ) (c₁ c₂ : ValueCache)
    (hc₁ : CacheCoherent render c₁) (hc₂ : CacheCoherent render c₂) :
    ((layoutWithCache render capacity keys penX c₁).1.map obsGlyph =
      (layoutWithCache render capacity keys penX c₂).1.map obsGlyph) ∧
    ((layoutWithCache render capacity keys penX c₁).1.map obsGlyph =
      (layoutWithCache render capacity keys penX
        ((layoutWithCache render capacity keys penX c₁).2)).1.map obsGlyph) := by
  constructor
  · exact layoutWithCache_obs_eq render capacity keys penX c₁ c₂ hc₁ hc₂
  · exact layoutWithCache_obs_eq render capacity keys penX c₁ _ hc₁
      (layoutWithCache_coherent render capacity keys penX c₁ hc₁)

/-- Witness for C9: three glyphs through a capacity-1 cache (forcing
evictions and re-renders, hence different atlas rects across the two runs)
starting from the empty cache, which is trivially coherent. -/
theorem layout_deterministic_witness :
    CacheCoherent (fun k => ((k.glyphIndex : ℚ), 2, 3)) ⟨[], 0⟩ ∧
    (((layoutWithCache (fun k => ((k.glyphIndex : ℚ), 2, 3)) 1
        [⟨1, 5, 64, true⟩, ⟨1, 6, 64, true⟩, ⟨1, 5, 64, true⟩] 0 ⟨[], 0⟩).1.map obsGlyph =
      (layoutWithCache (fun k => ((k.glyphIndex : ℚ), 2, 3)) 1
        [⟨1, 5, 64, true⟩, ⟨1, 6, 64, true⟩, ⟨1, 5, 64, true⟩] 0 ⟨[], 0⟩).1.map obsGlyph) ∧
     ((layoutWithCache (fun k => ((k.glyphIndex : ℚ), 2, 3)) 1
        [⟨1, 5, 64, true⟩, ⟨1, 6, 64, true⟩, ⟨1, 5, 64, true⟩] 0 ⟨[], 0⟩).1.map obsGlyph =
      (layoutWithCache (fun k => ((k.glyphIndex : ℚ), 2, 3)) 1
        [⟨1, 5, 64, true⟩, ⟨1, 6, 64, true⟩, ⟨1, 5, 64, true⟩] 0
        ((layoutWithCache (fun k => ((k.glyphIndex : ℚ), 2, 3)) 1
          [⟨1, 5, 64, true⟩, ⟨1, 6, 64, true⟩, ⟨1, 5, 64, true⟩] 0 ⟨[], 0⟩).2)).1.map obsGlyph)) :=
  ⟨fun e he => absurd he (List.not_mem_nil e),
   layout_deterministic (fun k => ((k.glyphIndex : ℚ), 2, 3)) 1
     [⟨1, 5, 64, true⟩, ⟨1, 6, 64, true⟩, ⟨1, 5, 64, true⟩] 0 ⟨[], 0⟩ ⟨[], 0⟩
     (fun e he => absurd he (List.not_mem_nil e))
     (fun e he => absurd he (List.not_mem_nil e))⟩

end RayText
